/-
  Verification of the core log-entry pipeline of the `ll` logging library.

  The Go source is shallowly embedded: pure fragments become Lean functions,
  the mutable namespace store / rate-limit state become explicit state values
  threaded through the functions, Go `map[string]interface{}` values become
  association lists whose observable behaviour (lookup after insert) matches
  Go map semantics, and `float64` sampling values become rationals (the code
  only ever compares them, so ordered-field comparison is a faithful model).
  Namespace paths are kept as Lean `String`s, exactly as in the source; the
  split/join helpers below mirror `strings.Split(path, "/")` and
  `strings.Join(parts, "/")` and are written by structural recursion over the
  character list so that closed instances evaluate inside the kernel.
-/
import Mathlib

/-- A runtime value carried in a log field (Go `interface{}`).  The two
`err*` constructors stand for the two `fmt.Errorf` diagnostics that
`Logger.Fields` manufactures (`non-string key in Fields: %v` and
`uneven key-value pairs in Fields: [%v]`); `stackTrace` stands for the
captured stack bytes attached by `log` when `withStack` is set. -/
inductive GoVal where
  | vstr : String → GoVal
  | vint : Int → GoVal
  | errNonString : GoVal → GoVal
  | errUneven : GoVal → GoVal
  | stackTrace : GoVal
deriving DecidableEq

/-- First-match lookup in an association list; the observable read operation
of a Go map (`m[k]` together with the `ok` flag). -/
def alookup {α β : Type} [DecidableEq α] : List (α × β) → α → Option β
  | [], _ => none
  | kv :: rest, k => if kv.1 = k then some kv.2 else alookup rest k

/-- Go map assignment `m[k] = v`: replace the binding if the key is present,
otherwise add a fresh binding. -/
def mapInsert {α β : Type} [DecidableEq α] : List (α × β) → α → β → List (α × β)
  | [], k, v => [(k, v)]
  | kv :: rest, k, v => if kv.1 = k then (k, v) :: rest else kv :: mapInsert rest k v

theorem alookup_mapInsert {α β : Type} [DecidableEq α]
    (m : List (α × β)) (k : α) (v : β) (q : α) :
    alookup (mapInsert m k v) q = if q = k then some v else alookup m q := by
  induction m with
  | nil =>
      by_cases h : q = k
      · simp [mapInsert, alookup, h]
      · have h' : ¬ k = q := fun hh => h hh.symm
        simp [mapInsert, alookup, h, h']
  | cons kv rest ih =>
      by_cases hk : kv.1 = k
      · by_cases hq : q = k
        · simp [mapInsert, alookup, hk, hq]
        · have : ¬ k = q := fun h => hq h.symm
          simp [mapInsert, alookup, hk, hq, this, hk ▸ this]
      · by_cases hq : kv.1 = q
        · have : q ≠ k := fun h => hk (h ▸ hq)
          simp [mapInsert, alookup, hk, hq, this]
        · simp [mapInsert, alookup, hk, hq, ih]

theorem mem_mapInsert {α β : Type} [DecidableEq α]
    (m : List (α × β)) (k : α) (v : β) (kv : α × β)
    (h : kv ∈ mapInsert m k v) : kv ∈ m ∨ kv = (k, v) := by
  induction m with
  | nil => simp [mapInsert] at h; simp [h]
  | cons hd rest ih =>
      by_cases hk : hd.1 = k
      · simp [mapInsert, hk] at h
        rcases h with h | h
        · right; simp [h]
        · left; simp [h]
      · simp [mapInsert, hk] at h
        rcases h with h | h
        · left; simp [h]
        · rcases ih h with h' | h'
          · left; simp [h']
          · right; exact h'

/-- Splits a character list on a separator character; the `List Char` core of
`strings.Split`.  `strings.Split("", "/") = [""]` corresponds to
`splitOnChar c [] = [[]]`. -/
def splitOnChar (c : Char) : List Char → List (List Char)
  | [] => [[]]
  | a :: rest =>
      let r := splitOnChar c rest
      if a = c then [] :: r
      else
        match r with
        | g :: gs => (a :: g) :: gs
        | [] => [[a]]

/-- `strings.Split(path, "/")`. -/
def splitPath (s : String) : List String :=
  (splitOnChar '/' s.data).map (fun cs => String.mk cs)

/-- `strings.HasPrefix(s, pre)`, computed structurally over the character
lists so that closed instances evaluate inside the kernel. -/
def strHasPrefix (pre s : String) : Bool :=
  pre.data.isPrefixOf s.data

/-- `strings.Join(parts, "/")`. -/
def joinPath (parts : List String) : String :=
  match parts with
  | [] => ""
  | p :: rest => rest.foldl (fun acc q => acc ++ "/" ++ q) p

/-- The shared namespace store (`namespaceStore` in `ll.go`, `lx.Namespace`
in `lx/ns.go`): a persistent map of explicit per-path states plus a cache of
computed effective states.  The store is modelled extensionally as a
function (`sync.Map.Load`/`Store`); the cache is kept as an association list
because `Set` iterates over it with `Range`. -/
structure NsState where
  store : String → Option Bool
  cache : List (String × Bool)

/-- The inner loop of the hierarchy walk in `Logger.shouldLog`
(`ll.go:376-385`): for `i := 1; i <= len(parts); i++` it loads
`strings.Join(parts[:i], "/")` and breaks with `enabled = false` as soon as
one prefix has an explicit `false`; an explicit `true` merely continues. -/
def nsCheck (store : String → Option Bool) (parts : List String) : List Nat → Bool
  | [] => true
  | i :: rest =>
      match store (joinPath (parts.take i)) with
      | some false => false
      | _ => nsCheck store parts rest

/-- The cache-miss computation of the namespace gate in `Logger.shouldLog`
(`ll.go:370-388`): an empty current path skips the walk (enabled), otherwise
the walk over all prefixes of the split path decides the state. -/
def nsCompute (store : String → Option Bool) (path : String) : Bool :=
  if path = "" then true
  else nsCheck store (splitPath path) ((List.range (splitPath path).length).map (fun i => i + 1))

/-- `lx.Namespace.Set` (`lx/ns.go:54-68`), also the body of
`Logger.NamespaceEnable` / `NamespaceDisable` (`ll.go:229-255`): store the
explicit state, delete the cache entry for `path`, and delete every cache
entry whose key has `path + "/"` as a prefix. -/
def nsSet (st : NsState) (path : String) (v : Bool) : NsState :=
  { store := fun q => if q = path then some v else st.store q,
    cache := ((st.cache.filter (fun kv => decide ¬(kv.1 = path))).filter
               (fun kv => !(strHasPrefix (path ++ "/") kv.1))) }

/-- The namespace gate of `Logger.shouldLog` (`ll.go:369-389`): empty path is
enabled without touching the cache; otherwise the cache is consulted first
and a miss computes the state via the hierarchy walk and caches the result. -/
def nsIsEnabled (st : NsState) (path : String) : Bool × NsState :=
  if path = "" then (true, st)
  else
    match alookup st.cache path with
    | some b => (b, st)
    | none => (nsCompute st.store path, { st with cache := (path, nsCompute st.store path) :: st.cache })

/-- Modelled from the spec, for comparison with the code: "effective state =
the deepest ancestor's explicit value, or true if none" (spec section 4.1,
testable invariant 1).  The walk from root to leaf keeps the last explicit
value seen. -/
def specDeepestAncestorEnabled (store : String → Option Bool) (path : String) : Bool :=
  if path = "" then true
  else
    (((List.range (splitPath path).length).map (fun i => i + 1)).foldl
      (fun acc i =>
        match store (joinPath ((splitPath path).take i)) with
        | some b => some b
        | none => acc) none).getD true

/-- The explicit-state map produced by `NamespaceDisable("app")` followed by
`NamespaceEnable("app/db")` — the configuration of the README's motivating
example and of end-to-end scenario 1 of the spec. -/
def store0 : String → Option Bool := fun p =>
  if p = "app" then some false
  else if p = "app/db" then some true
  else none

/-- Claim C1.  The claim asserts that the hierarchy walk returns the explicit
value of the deepest ancestor (inclusive) with an explicit entry, so that a
path explicitly re-enabled underneath an explicitly disabled ancestor is
enabled — the behaviour documented by the README's motivating example
(disable "app", enable "app/db", and the "app/db" logger still logs) and by
the spec.  The code instead breaks out of the walk at the first explicitly
disabled ancestor (`ll.go:379-384`), so the explicit re-enable on "app/db"
is never reached: the walk reports "app/db" disabled while the documented
deepest-ancestor rule reports it enabled.  The code contradicts its own
documentation; this theorem evaluates both at the failing input. -/
theorem namespace_reenable_divergence :
    nsCompute store0 "app/db" = false ∧ specDeepestAncestorEnabled store0 "app/db" = true :=
  ⟨by decide, by decide⟩

theorem alookup_filter_none {α β : Type} [DecidableEq α] {p : (α × β) → Bool}
    (l : List (α × β)) (q : α)
    (h : ∀ kv ∈ l, kv.1 = q → p kv = false) : alookup (l.filter p) q = none := by
  induction l with
  | nil => simp [alookup]
  | cons kv rest ih =>
      have ih' := ih (fun kv' hm hq => h kv' (List.mem_cons_of_mem _ hm) hq)
      by_cases hp : p kv = true
      · have hne : ¬ kv.1 = q := fun hq => by
          have := h kv (List.mem_cons_self _ _) hq
          rw [hp] at this
          cases this
        simp [List.filter, hp, alookup, hne, ih']
      · simp only [Bool.not_eq_true] at hp
        simp [List.filter, hp, ih']

/-- Claim C2.  After `Set(P, v)` (equivalently `NamespaceEnable` /
`NamespaceDisable`), the cache entry for `P` and every cached entry whose key
begins with `P` followed by the separator have been removed, so a subsequent
`IsEnabled(Q)` for `Q = P` or for `Q` extending `P + "/"` cannot observe a
previously cached value and recomputes the effective state from the explicit
entries via the hierarchy walk. -/
theorem namespace_set_invalidates_cache (st : NsState) (P Q : String) (v : Bool)
    (hQ : Q = P ∨ strHasPrefix (P ++ "/") Q = true) :
    alookup (nsSet st P v).cache Q = none ∧
    (nsIsEnabled (nsSet st P v) Q).fst = nsCompute (nsSet st P v).store Q := by
  have hnone : alookup (nsSet st P v).cache Q = none := by
    apply alookup_filter_none
    intro kv hmem hkey
    rcases hQ with h | h
    · exfalso
      have hp1 := (List.mem_filter.mp hmem).2
      simp only [decide_eq_true_eq] at hp1
      exact hp1 (hkey.trans h)
    · simp [hkey, h]
  refine ⟨hnone, ?_⟩
  by_cases hq : Q = ""
  · simp [nsIsEnabled, nsCompute, hq]
  · simp [nsIsEnabled, hq, hnone]

/-- Witness for C2 at a concrete state: a cache entry for "a/b" computed
before `Set("a", true)` is removed by the update and the next lookup
recomputes. -/
theorem namespace_set_invalidates_cache_witness :
    alookup (nsSet ⟨store0, [("a/b", false)]⟩ "a" true).cache "a/b" = none ∧
    (nsIsEnabled (nsSet ⟨store0, [("a/b", false)]⟩ "a" true) "a/b").fst
      = nsCompute (nsSet ⟨store0, [("a/b", false)]⟩ "a" true).store "a/b" :=
  namespace_set_invalidates_cache ⟨store0, [("a/b", false)]⟩ "a" "a/b" true (Or.inr (by decide))

/-- `Level` in `ll.go` (an `int`); `lx.LevelType` in the split-out packages. -/
abbrev LevelType := Int

def LevelDebug : LevelType := 0
def LevelInfo : LevelType := 1
def LevelWarn : LevelType := 2
def LevelError : LevelType := 3

/-- Per-level rate-limit state (`rateLimit` in `ll.go:94-100`); times and the
window are in nanoseconds. -/
structure rateLimit where
  count : Int
  maxCount : Int
  interval : Int
  last : Int
deriving DecidableEq

/-- The rate-limit gate of `Logger.shouldLog` (`ll.go:401-418`): if the
window has elapsed, reset the window start and counter; drop when the
counter has reached the maximum, otherwise increment it and forward.
`RateLimiter.Handle` in the `lm` package performs the equivalent
increment-then-compare. -/
def rateGate (rl0 : rateLimit) (now : Int) : Bool × rateLimit :=
  let rl := if now - rl0.last ≥ rl0.interval then { rl0 with last := now, count := 0 } else rl0
  if rl.count ≥ rl.maxCount then (false, rl)
  else (true, { rl with count := rl.count + 1 })

/-- Runs the rate-limit gate over a sequence of emission times, returning the
per-emission forward/drop decisions and the final state. -/
def rateRun (rl : rateLimit) : List Int → List Bool × rateLimit
  | [] => ([], rl)
  | t :: ts =>
      ((rateGate rl t).fst :: (rateRun (rateGate rl t).snd ts).fst,
       (rateRun (rateGate rl t).snd ts).snd)

theorem rateRun_in_window (N I t0 : Int) :
    ∀ (ts : List Int) (k : Int), (∀ t ∈ ts, t - t0 < I) →
      (rateRun { count := k, maxCount := N, interval := I, last := t0 } ts).fst
        = (List.range ts.length).map (fun i : Nat => decide ((k + i : Int) < N))
  | [], k, _ => by simp [rateRun]
  | t :: ts, k, hw => by
      have hle : ¬ (t - t0 ≥ I) := by
        have := hw t (List.mem_cons_self _ _)
        omega
      have hw' : ∀ t' ∈ ts, t' - t0 < I := fun t' ht' => hw t' (List.mem_cons_of_mem _ ht')
      by_cases hN : k ≥ N
      · have hg : rateGate { count := k, maxCount := N, interval := I, last := t0 } t
            = (false, { count := k, maxCount := N, interval := I, last := t0 }) := by
          simp [rateGate, hle, hN]
        have ih := rateRun_in_window N I t0 ts k hw'
        simp only [rateRun, hg, ih, List.length_cons, List.range_succ_eq_map, List.map_cons,
          List.map_map]
        refine List.cons_eq_cons.mpr ⟨?_, ?_⟩
        · have h0 : ¬ ((k + (0 : Nat) : Int) < N) := by push_cast; omega
          simp [h0]
          omega
        · apply List.map_congr_left
          intro i _
          simp only [Function.comp]
          rw [decide_eq_decide]
          push_cast
          omega
      · have hg : rateGate { count := k, maxCount := N, interval := I, last := t0 } t
            = (true, { count := k + 1, maxCount := N, interval := I, last := t0 }) := by
          simp [rateGate, hle]
          omega
        have ih := rateRun_in_window N I t0 ts (k + 1) hw'
        simp only [rateRun, hg, ih, List.length_cons, List.range_succ_eq_map, List.map_cons,
          List.map_map]
        refine List.cons_eq_cons.mpr ⟨?_, ?_⟩
        · have h0 : ((k + (0 : Nat) : Int) < N) := by push_cast; omega
          simp [h0]
          omega
        · apply List.map_congr_left
          intro i _
          simp only [Function.comp]
          rw [decide_eq_decide]
          push_cast
          omega

/-- Claim C3.  For a rate limit of max count `N` over window `I`: (a) a
sequence of emissions all inside one window (each time within `I` of the
window start, counter starting at zero) forwards exactly the first `N` and
drops the rest; (b) once the window has elapsed, the window start and
counter reset and the next emission is forwarded again exactly when `N ≥ 1`
(the forwarded emission leaving the counter at one); (c) with `N = 0` every
emission is dropped. -/
theorem rate_limit_window_behavior (N I t0 : Int) (ts : List Int)
    (hw : ∀ t ∈ ts, t - t0 < I) :
    (rateRun { count := 0, maxCount := N, interval := I, last := t0 } ts).fst
      = (List.range ts.length).map (fun i : Nat => decide ((i : Int) < N))
  ∧ (∀ (rl : rateLimit) (now : Int), now - rl.last ≥ rl.interval →
      (rateGate rl now).snd.last = now
      ∧ (rateGate rl now).snd.count = (if (rateGate rl now).fst then 1 else 0)
      ∧ (rateGate rl now).fst = decide (0 < rl.maxCount))
  ∧ (∀ (rl : rateLimit) (now : Int), rl.maxCount = 0 → 0 ≤ rl.count →
      (rateGate rl now).fst = false) := by
  refine ⟨?_, ?_, ?_⟩
  · have h := rateRun_in_window N I t0 ts 0 hw
    simpa using h
  · intro rl now hnow
    by_cases hc : (0 : Int) ≥ rl.maxCount
    · have h1 : ¬ ((0 : Int) < rl.maxCount) := by omega
      simp [rateGate, hnow, hc, h1]
    · have h1 : (0 : Int) < rl.maxCount := by omega
      simp [rateGate, hnow, hc, h1]
  · intro rl now h0 hc
    by_cases hnow : now - rl.last ≥ rl.interval
    · simp [rateGate, hnow, h0]
    · have hge : rl.count ≥ rl.maxCount := by omega
      simp [rateGate, hnow, hge]

/-- Witness for C3: max count 2 over a window of 10 starting at 0, emissions
at times 1, 2, 3 inside the window: the first two are forwarded, the third
is dropped. -/
theorem rate_limit_window_behavior_witness :
    (rateRun { count := 0, maxCount := 2, interval := 10, last := 0 } [1, 2, 3]).fst
      = [true, true, false] :=
  ((rate_limit_window_behavior 2 10 0 [1, 2, 3] (by decide)).1).trans (by decide)

/-- The sampling gate of `Logger.shouldLog` (`ll.go:394-399`): when a rate is
configured for the level, draw `rand.Float64()` (the `sample` argument, a
uniform value in `[0,1)`) and drop exactly when `sample > rate`.
`lm.Sampling.Handle` applies the same strict comparison (`random <= rate`
forwards).  Returns `true` to forward. -/
def sampleGate (rates : List (LevelType × Rat)) (level : LevelType) (sample : Rat) : Bool :=
  match alookup rates level with
  | some rate => if sample > rate then false else true
  | none => true

/-- Claim C4 (code bug).  The claim (and the code's own documentation of
`SetSampling`: "0.0 suppresses all logs") says an emission is dropped exactly
when the sample is greater than or equal to the admit probability, so rate
0.0 must drop every emission for every possible sample value.  The code
compares strictly (`rand.Float64() > rate`), so at rate 0.0 the possible
sample 0.0 is forwarded.  First conjunct: the gate forwards at the failing
input (rate 0.0, sample 0.0).  Second conjunct: for a configured level the
gate forwards exactly when `sample ≤ rate` — strict drop, not the claimed
`≥` drop. -/
theorem sampling_gate_strict_comparison :
    sampleGate [(LevelInfo, (0 : Rat))] LevelInfo 0 = true
  ∧ ∀ (lv : LevelType) (rate sample : Rat),
      sampleGate [(lv, rate)] lv sample = decide (sample ≤ rate) := by
  refine ⟨by decide, ?_⟩
  intro lv rate sample
  by_cases h : sample > rate
  · have h' : ¬ (sample ≤ rate) := not_le.mpr h
    simp [sampleGate, alookup, h, h']
  · have h' : sample ≤ rate := not_lt.mp h
    simp [sampleGate, alookup, h, h']

/-- The loop body of `Logger.Fields` (`ll.go:288-294`): consume the variadic
arguments two at a time while at least two remain; a string key stores the
pair, a non-string key stores the `non-string key in Fields` diagnostic
under the key "error". -/
def fieldsLoop (m : List (String × GoVal)) : List GoVal → List (String × GoVal)
  | k :: v :: rest =>
      match k with
      | GoVal.vstr s => fieldsLoop (mapInsert m s v) rest
      | _ => fieldsLoop (mapInsert m "error" (GoVal.errNonString k)) rest
  | _ => m

/-- `Logger.Fields` (`ll.go:286-299`): run the pair loop, then, when the
argument count is odd, store the `uneven key-value pairs` diagnostic for the
last argument under the key "error". -/
def FieldsGo (pairs : List GoVal) : List (String × GoVal) :=
  let m := fieldsLoop [] pairs
  if pairs.length % 2 ≠ 0 then
    match pairs.getLast? with
    | some x => mapInsert m "error" (GoVal.errUneven x)
    | none => m
  else m

/-- The value of the last complete string-keyed pair with key `k` among the
variadic arguments (the value a Go map retains after the `Fields` loop). -/
def lastDataValue : List GoVal → String → Option GoVal
  | a :: b :: rest, k =>
      match lastDataValue rest k with
      | some v => some v
      | none =>
          match a with
          | GoVal.vstr s => if s = k then some b else none
          | _ => none
  | _, _ => none

theorem fieldsLoop_alookup (k : String) (hk : ¬ (k = "error")) :
    ∀ (ps : List GoVal) (m : List (String × GoVal)),
      alookup (fieldsLoop m ps) k
        = (match lastDataValue ps k with
           | some v => some v
           | none => alookup m k)
  | [], m => by simp [fieldsLoop, lastDataValue]
  | [a], m => by simp [fieldsLoop, lastDataValue]
  | a :: b :: rest, m => by
      cases a with
      | vstr s =>
          have ih := fieldsLoop_alookup k hk rest (mapInsert m s b)
          simp only [fieldsLoop, lastDataValue, ih, alookup_mapInsert]
          cases h : lastDataValue rest k with
          | some v => simp
          | none =>
              by_cases hs : s = k
              · simp [hs]
              · have hs' : ¬ (k = s) := fun h => hs h.symm
                simp [hs, hs']
      | vint n =>
          have ih := fieldsLoop_alookup k hk rest (mapInsert m "error" (GoVal.errNonString (GoVal.vint n)))
          simp only [fieldsLoop, lastDataValue, ih, alookup_mapInsert, hk]
          cases h : lastDataValue rest k with
          | some v => simp
          | none => simp [hk]
      | errNonString e =>
          have ih := fieldsLoop_alookup k hk rest (mapInsert m "error" (GoVal.errNonString (GoVal.errNonString e)))
          simp only [fieldsLoop, lastDataValue, ih, alookup_mapInsert, hk]
          cases h : lastDataValue rest k with
          | some v => simp
          | none => simp [hk]
      | errUneven e =>
          have ih := fieldsLoop_alookup k hk rest (mapInsert m "error" (GoVal.errNonString (GoVal.errUneven e)))
          simp only [fieldsLoop, lastDataValue, ih, alookup_mapInsert, hk]
          cases h : lastDataValue rest k with
          | some v => simp
          | none => simp [hk]
      | stackTrace =>
          have ih := fieldsLoop_alookup k hk rest (mapInsert m "error" (GoVal.errNonString GoVal.stackTrace))
          simp only [fieldsLoop, lastDataValue, ih, alookup_mapInsert, hk]
          cases h : lastDataValue rest k with
          | some v => simp
          | none => simp [hk]

theorem getLast?_some_of_ne_nil : ∀ (l : List GoVal), l ≠ [] → ∃ x, l.getLast? = some x
  | [a], _ => ⟨a, rfl⟩
  | a :: b :: t, _ => by
      obtain ⟨x, hx⟩ := getLast?_some_of_ne_nil (b :: t) (by simp)
      exact ⟨x, by rw [List.getLast?_cons_cons, hx]⟩

theorem fieldsGo_error_of_odd (ps : List GoVal) (hodd : ps.length % 2 = 1) :
    alookup (FieldsGo ps) "error" = ps.getLast?.map GoVal.errUneven := by
  have hne : ps ≠ [] := by
    intro h
    rw [h] at hodd
    simp at hodd
  obtain ⟨x, hx⟩ := getLast?_some_of_ne_nil ps hne
  have hmod : ps.length % 2 ≠ 0 := by omega
  simp only [FieldsGo, hmod, if_true, hx, alookup_mapInsert, Option.map_some]
  simp [hodd, alookup_mapInsert]

theorem fieldsGo_alookup_ne_error (ps : List GoVal) (k : String) (hk : ¬ (k = "error")) :
    alookup (FieldsGo ps) k = lastDataValue ps k := by
  have h1 := fieldsLoop_alookup k hk ps []
  have h2 : (match lastDataValue ps k with
             | some v => some v
             | none => alookup ([] : List (String × GoVal)) k) = lastDataValue ps k := by
    cases lastDataValue ps k <;> simp [alookup]
  rw [h2] at h1
  simp only [FieldsGo]
  by_cases hmod : ps.length % 2 ≠ 0
  · rw [if_pos hmod]
    cases hx : ps.getLast? with
    | none => exact h1
    | some x =>
        rw [alookup_mapInsert]
        simp [hk, h1]
  · rw [if_neg hmod]
    exact h1

/-- Claim C5 (amended).  `Fields` with zero arguments yields an empty field
map and no error field; with exactly one argument it yields exactly one
synthetic "error" field describing uneven pairs and no data fields; with an
odd argument count in general the "error" key holds the uneven-pairs
diagnostic for the trailing argument, and every other key holds the value
of the last complete string-keyed pair with that key (later pairs with the
same key overwrite earlier ones, and a data pair keyed "error" is
overwritten by the synthetic error rather than kept). -/
theorem fields_builder_behavior :
    FieldsGo [] = []
  ∧ (∀ a : GoVal, FieldsGo [a] = [("error", GoVal.errUneven a)])
  ∧ ∀ ps : List GoVal, ps.length % 2 = 1 →
      alookup (FieldsGo ps) "error" = ps.getLast?.map GoVal.errUneven
      ∧ ∀ k : String, ¬ (k = "error") → alookup (FieldsGo ps) k = lastDataValue ps k := by
  refine ⟨rfl, ?_, ?_⟩
  · intro a
    rfl
  · intro ps hodd
    exact ⟨fieldsGo_error_of_odd ps hodd, fun k hk => fieldsGo_alookup_ne_error ps k hk⟩

/-- Claim C5 counterexample.  At `Fields("error", 0, 7)` the complete
string-keyed pair `("error", 0)` precedes the odd trailing argument, yet it
is not kept as a data field: the synthetic uneven-pairs error overwrites
it, and the resulting field map is exactly the singleton error binding. -/
theorem fields_error_pair_not_kept :
    FieldsGo [GoVal.vstr "error", GoVal.vint 0, GoVal.vint 7]
      = [("error", GoVal.errUneven (GoVal.vint 7))]
  ∧ alookup (FieldsGo [GoVal.vstr "error", GoVal.vint 0, GoVal.vint 7]) "error"
      ≠ some (GoVal.vint 0) :=
  ⟨by decide, by decide⟩

/-- Witness for C5 at a concrete odd argument list `Fields("a", 1, 9)`. -/
theorem fields_builder_behavior_witness :
    alookup (FieldsGo [GoVal.vstr "a", GoVal.vint 1, GoVal.vint 9]) "a"
      = lastDataValue [GoVal.vstr "a", GoVal.vint 1, GoVal.vint 9] "a" :=
  (fields_builder_behavior.2.2 [GoVal.vstr "a", GoVal.vint 1, GoVal.vint 9] (by decide)).2
    "a" (by decide)

/-- Recognizes the two synthetic diagnostics manufactured by `Fields`. -/
def syntheticErr : GoVal → Bool
  | GoVal.errNonString _ => true
  | GoVal.errUneven _ => true
  | _ => false

/-- The Go type assertion `pairs[i].(string)` of the `Fields` loop. -/
def isStr : GoVal → Bool
  | GoVal.vstr _ => true
  | _ => false

theorem fieldsLoop_cons_nonstr (a b : GoVal) (ha : isStr a = false)
    (m : List (String × GoVal)) (rest : List GoVal) :
    fieldsLoop m (a :: b :: rest)
      = fieldsLoop (mapInsert m "error" (GoVal.errNonString a)) rest := by
  cases a <;> simp [fieldsLoop, isStr] at ha ⊢

theorem mem_fieldsLoop :
    ∀ (ps : List GoVal) (m : List (String × GoVal)) (kv : String × GoVal),
      kv ∈ fieldsLoop m ps →
        kv ∈ m ∨ (∃ b ∈ ps, kv.2 = b)
          ∨ (kv.1 = "error" ∧ ∃ a ∈ ps, kv.2 = GoVal.errNonString a)
  | [], m, kv, h => Or.inl (by simpa [fieldsLoop] using h)
  | [a], m, kv, h => Or.inl (by simpa [fieldsLoop] using h)
  | a :: b :: rest, m, kv, h => by
      by_cases ha : isStr a = true
      · obtain ⟨s, rfl⟩ : ∃ s, a = GoVal.vstr s := by
          cases a <;> simp [isStr] at ha ⊢
        have h' := mem_fieldsLoop rest (mapInsert m s b) kv (by simpa [fieldsLoop] using h)
        rcases h' with h' | h' | h'
        · rcases mem_mapInsert m s b kv h' with h'' | h''
          · exact Or.inl h''
          · exact Or.inr (Or.inl ⟨b, by simp, by simp [h'']⟩)
        · obtain ⟨c, hc, hkv⟩ := h'
          exact Or.inr (Or.inl ⟨c, by simp [hc], hkv⟩)
        · obtain ⟨hkey, c, hc, hkv⟩ := h'
          exact Or.inr (Or.inr ⟨hkey, c, by simp [hc], hkv⟩)
      · have ha' : isStr a = false := by simpa using ha
        rw [fieldsLoop_cons_nonstr a b ha'] at h
        have h' := mem_fieldsLoop rest (mapInsert m "error" (GoVal.errNonString a)) kv h
        rcases h' with h' | h' | h'
        · rcases mem_mapInsert m "error" (GoVal.errNonString a) kv h' with h'' | h''
          · exact Or.inl h''
          · exact Or.inr (Or.inr ⟨by simp [h''], a, by simp, by simp [h'']⟩)
        · obtain ⟨c, hc, hkv⟩ := h'
          exact Or.inr (Or.inl ⟨c, by simp [hc], hkv⟩)
        · obtain ⟨hkey, c, hc, hkv⟩ := h'
          exact Or.inr (Or.inr ⟨hkey, c, by simp [hc], hkv⟩)

/-- Claim C10.  When the argument list of `Fields` is uneven and contains a
non-string key (among plain caller-supplied values), the uneven-pairs
diagnostic is written last and overwrites the non-string-key diagnostic:
the "error" key holds the uneven-pairs error for the trailing argument, and
every binding carrying a synthetic diagnostic sits under the single key
"error" — at most one synthetic error field regardless of how many misuses
occur. -/
theorem fields_single_synthetic_error (ps : List GoVal)
    (hodd : ps.length % 2 = 1)
    (hplain : ∀ v ∈ ps, syntheticErr v = false)
    (hmis : ∃ i v, i % 2 = 0 ∧ i + 1 < ps.length ∧ ps[i]? = some v ∧ isStr v = false) :
    alookup (FieldsGo ps) "error" = ps.getLast?.map GoVal.errUneven
  ∧ ∀ kv ∈ FieldsGo ps, syntheticErr kv.2 = true → kv.1 = "error" := by
  refine ⟨fieldsGo_error_of_odd ps hodd, ?_⟩
  intro kv hmem hsyn
  have hne : ps ≠ [] := by
    intro h
    rw [h] at hodd
    simp at hodd
  obtain ⟨x, hx⟩ := getLast?_some_of_ne_nil ps hne
  have hmod : ps.length % 2 ≠ 0 := by omega
  simp only [FieldsGo, hx] at hmem
  rw [if_pos hmod] at hmem
  rcases mem_mapInsert _ _ _ kv hmem with h | h
  · rcases mem_fieldsLoop ps [] kv h with h' | h' | h'
    · simp at h'
    · obtain ⟨b, hb, hkv⟩ := h'
      have hpl := hplain b hb
      rw [hkv] at hsyn
      rw [hsyn] at hpl
      cases hpl
    · exact h'.1
  · simp [h]

/-- Witness for C10 at `Fields(4, 1, 9)`: a non-string key at position 0 and
an odd trailing argument; the resulting error field is the uneven-pairs
diagnostic. -/
theorem fields_single_synthetic_error_witness :
    alookup (FieldsGo [GoVal.vint 4, GoVal.vint 1, GoVal.vint 9]) "error"
      = some (GoVal.errUneven (GoVal.vint 9)) :=
  ((fields_single_synthetic_error [GoVal.vint 4, GoVal.vint 1, GoVal.vint 9]
      (by decide) (by decide) ⟨0, GoVal.vint 4, rfl, by decide, rfl, rfl⟩).1).trans (by decide)

/-- The context merge of `Logger.log` (`ll.go:338-347`): for each key of the
logger's context, the key is added to the entry's fields only when it is not
already present; an existing per-emission binding is never overwritten.
(The `len(context) > 0` guard and the lazy `make` of a nil field map are
observationally identical to folding over an empty context / empty map.) -/
def ctxMerge (fields ctx : List (String × GoVal)) : List (String × GoVal) :=
  ctx.foldl (fun m kv =>
    match alookup m kv.1 with
    | some _ => m
    | none => mapInsert m kv.1 kv.2) fields

/-- Claim C6.  The context merge adds exactly the context keys absent from
the per-emission fields: a lookup in the merged map returns the
per-emission value whenever the key had one (the context never overwrites
it) and the context value exactly when it did not. -/
theorem context_merge_no_overwrite :
    ∀ (ctx fields : List (String × GoVal)) (k : String),
      alookup (ctxMerge fields ctx) k
        = (match alookup fields k with
           | some v => some v
           | none => alookup ctx k)
  | [], fields, k => by
      cases h : alookup fields k <;> simp [ctxMerge, alookup, h]
  | kv :: ctx, fields, k => by
      have hstep : ctxMerge fields (kv :: ctx)
          = ctxMerge (match alookup fields kv.1 with
                      | some _ => fields
                      | none => mapInsert fields kv.1 kv.2) ctx := rfl
      rw [hstep]
      cases h : alookup fields kv.1 with
      | some w =>
          have ih := context_merge_no_overwrite ctx fields k
          simp only [ih]
          by_cases hk : kv.1 = k
          · rw [hk] at h
            simp [alookup, h, hk]
          · simp [alookup, hk]
      | none =>
          have ih := context_merge_no_overwrite ctx (mapInsert fields kv.1 kv.2) k
          simp only [ih, alookup_mapInsert]
          by_cases hk : k = kv.1
          · have h2 : alookup fields k = none := by rw [hk]; exact h
            simp [alookup, h2, hk, h]
          · have hk' : ¬ (kv.1 = k) := fun hh => hk hh.symm
            simp [alookup, hk, hk']

/-- A Go `error` value as observed in the fan-out sink: an `fmt.Errorf` leaf,
the per-child wrapper `fmt.Errorf("handler %d: %w", i, err)`, or the
aggregate produced by `errors.Join`. -/
inductive GoErr where
  | errorf : String → GoErr
  | wrap : Nat → GoErr → GoErr
  | joined : List GoErr → GoErr

/-- `errors.Join(errs...)`: nil when no error was collected, otherwise the
aggregate of the collected errors. -/
def errsJoin : List GoErr → Option GoErr
  | [] => none
  | a :: rest => some (GoErr.joined (a :: rest))

/-- Namespace formatting style (`Style` in `ll.go`). -/
inductive Style where
  | FlatPath : Style
  | NestedPath : Style
deriving DecidableEq

/-- A log entry (`Entry` in `ll.go:55-62`). -/
structure EntryM where
  Timestamp : Int
  Level : LevelType
  Message : String
  Namespace : String
  Fields : List (String × GoVal)
  style : Style

/-- The loop of `MultiHandler.Handle` (`lh.go:30-39`, `lh/pipe.go:93-102`):
call `Handle` on every child in order (the trace of called indices is the
first component), collect a wrapped error for every child that fails, and
continue past failures. -/
def multiRun (e : EntryM) : Nat → List (EntryM → Option GoErr) → List Nat × List GoErr
  | _, [] => ([], [])
  | i, h :: hs =>
      (i :: (multiRun e (i + 1) hs).fst,
       match h e with
       | some err => GoErr.wrap i err :: (multiRun e (i + 1) hs).snd
       | none => (multiRun e (i + 1) hs).snd)

/-- `MultiHandler.Handle`: the aggregated (`errors.Join`) result of the loop. -/
def multiHandle (hs : List (EntryM → Option GoErr)) (e : EntryM) : Option GoErr :=
  errsJoin (multiRun e 0 hs).snd

theorem snd_mem_of_mem_enumFrom {α : Type} :
    ∀ (l : List α) (i : Nat) (p : Nat × α), p ∈ List.enumFrom i l → p.2 ∈ l
  | [], _, _, h => by simp [List.enumFrom] at h
  | a :: l, i, p, h => by
      rw [List.enumFrom_cons] at h
      rcases List.mem_cons.mp h with h | h
      · simp [h]
      · exact List.mem_cons_of_mem _ (snd_mem_of_mem_enumFrom l (i + 1) p h)

theorem multiRun_spec (e : EntryM) :
    ∀ (hs : List (EntryM → Option GoErr)) (i : Nat),
      (multiRun e i hs).fst = List.range' i hs.length
      ∧ (multiRun e i hs).snd
          = (List.enumFrom i hs).filterMap (fun ih => (ih.2 e).map (GoErr.wrap ih.1))
  | [], i => by simp [multiRun, List.enumFrom]
  | h :: hs, i => by
      have ih := multiRun_spec e hs (i + 1)
      refine ⟨?_, ?_⟩
      · simp only [multiRun, ih.1, List.length_cons, List.range'_succ]
      · simp only [multiRun, ih.2, List.enumFrom_cons, List.filterMap_cons]
        cases hr : h e with
        | some err => simp [hr]
        | none => simp [hr]

/-- Claim C7.  For every entry handed to the fan-out sink, the loop of
`MultiHandler.Handle` calls each child exactly once in registration order
(the invocation trace is exactly the index sequence 0..n-1), continues past
children that fail, returns the `errors.Join` aggregation of the wrapped
errors of exactly the failing children in order, and returns nil when every
child succeeds. -/
theorem multihandler_order_and_join (hs : List (EntryM → Option GoErr)) (e : EntryM) :
    (multiRun e 0 hs).fst = List.range hs.length
  ∧ multiHandle hs e
      = errsJoin (hs.enum.filterMap (fun ih => (ih.2 e).map (GoErr.wrap ih.1)))
  ∧ ((∀ h ∈ hs, h e = none) → multiHandle hs e = none) := by
  have hspec := multiRun_spec e hs 0
  have henum : (hs.enum : List (Nat × (EntryM → Option GoErr))) = List.enumFrom 0 hs := rfl
  refine ⟨?_, ?_, ?_⟩
  · rw [hspec.1, List.range_eq_range']
  · rw [multiHandle, hspec.2, henum]
  · intro hall
    have hnil : (List.enumFrom 0 hs).filterMap
        (fun ih => (ih.2 e).map (GoErr.wrap ih.1)) = [] := by
      rw [List.filterMap_eq_nil_iff]
      intro ih hmem
      rw [hall ih.2 (snd_mem_of_mem_enumFrom hs 0 ih hmem)]
      rfl
    rw [multiHandle, hspec.2, hnil]
    rfl

/-- Witness for C7: a two-child fan-out where both children succeed returns
nil. -/
theorem multihandler_order_and_join_witness :
    multiHandle [fun _ => none, fun _ => none]
      { Timestamp := 0, Level := LevelInfo, Message := "m", Namespace := "app",
        Fields := [], style := Style.FlatPath } = none := by
  refine (multihandler_order_and_join [fun _ => none, fun _ => none] _).2.2 ?_
  intro h hmem
  rcases List.mem_cons.mp hmem with h' | h'
  · rw [h']
  · rcases List.mem_cons.mp h' with h'' | h''
    · rw [h'']
    · simp at h''

/-- The `Buffering` configuration of the buffered handler (`lh` package);
`FlushInterval` is a `time.Duration` in nanoseconds.  (The `OnOverflow`
callback is not modelled: no claim concerns it.) -/
structure Buffering where
  BatchSize : Int
  FlushInterval : Int
  MaxBuffer : Int
deriving DecidableEq

/-- The defaults installed by `NewBuffered` before options are applied:
batch 100, flush interval 10s, maximum buffer 1000. -/
def bufferingDefaults : Buffering :=
  { BatchSize := 100, FlushInterval := 10000000000, MaxBuffer := 1000 }

/-- The "ensure sane values" block of `NewBuffered`: clamp the batch size to
at least 1, raise the maximum buffer to ten times the (already clamped)
batch size when smaller, and replace a non-positive flush interval by 10s. -/
def buffSanitize (c0 : Buffering) : Buffering :=
  let c1 := if c0.BatchSize < 1 then { c0 with BatchSize := 1 } else c0
  let c2 := if c1.MaxBuffer < c1.BatchSize then { c1 with MaxBuffer := c1.BatchSize * 10 } else c1
  let c3 := if c2.FlushInterval ≤ 0 then { c2 with FlushInterval := 10000000000 } else c2
  c3

/-- The configuration part of `NewBuffered`: apply the options to the
defaults in order, then sanitize. -/
def NewBufferedConfig (opts : List (Buffering → Buffering)) : Buffering :=
  buffSanitize (opts.foldl (fun c o => o c) bufferingDefaults)

def WithBatchSize (n : Int) : Buffering → Buffering :=
  fun c => { c with BatchSize := n }

def WithFlushInterval (d : Int) : Buffering → Buffering :=
  fun c => { c with FlushInterval := d }

def WithMaxBuffer (n : Int) : Buffering → Buffering :=
  fun c => { c with MaxBuffer := n }

/-- Claim C8.  `NewBuffered` normalizes its configuration: with no options
the result is the defaults (batch 100, interval 10s, maximum buffer 1000);
in general a configured batch size below 1 becomes 1, a non-positive flush
interval becomes 10s, and a maximum buffer smaller than the normalized
batch size is raised to ten times the normalized batch size. -/
theorem buffered_config_normalization :
    NewBufferedConfig [] = { BatchSize := 100, FlushInterval := 10000000000, MaxBuffer := 1000 }
  ∧ ∀ b i m : Int,
      buffSanitize { BatchSize := b, FlushInterval := i, MaxBuffer := m }
        = { BatchSize := if b < 1 then 1 else b,
            FlushInterval := if i ≤ 0 then 10000000000 else i,
            MaxBuffer := if m < (if b < 1 then 1 else b)
                         then (if b < 1 then 1 else b) * 10 else m } := by
  refine ⟨rfl, ?_⟩
  intro b i m
  by_cases h1 : b < 1
  · by_cases h2 : m < 1
    · by_cases h3 : i ≤ 0 <;> simp [buffSanitize, h1, h2, h3]
    · by_cases h3 : i ≤ 0 <;> simp [buffSanitize, h1, h2, h3]
  · by_cases h2 : m < b
    · by_cases h3 : i ≤ 0 <;> simp [buffSanitize, h1, h2, h3]
    · by_cases h3 : i ≤ 0 <;> simp [buffSanitize, h1, h2, h3]

/-- The `Logger` of `ll.go:70-82` as far as the emission pipeline reads it.
The mutable `rateLimits` map is carried in the structure and returned
updated by `shouldLog`; the namespace store is the shared `NsState` passed
alongside.  The handler is modelled by its presence (`log` only checks
`handler != nil` before invoking it). -/
structure LoggerM where
  enabled : Bool
  level : LevelType
  currentPath : String
  context : List (String × GoVal)
  style : Style
  hasHandler : Bool
  rateLimits : List (LevelType × rateLimit)
  sampleRates : List (LevelType × Rat)
  middleware : List (EntryM → Bool)

/-- `New(namespace)` (`ll.go:123-136`): a fresh logger with the default
enabled state (`defaultEnabled = false`), level Debug, the given namespace,
empty context, flat style, a `TextHandler`, and empty rate-limit, sampling
and middleware configuration. -/
def New (path : String) : LoggerM :=
  { enabled := false, level := LevelDebug, currentPath := path, context := [],
    style := Style.FlatPath, hasHandler := true, rateLimits := [],
    sampleRates := [], middleware := [] }

/-- `Logger.shouldLog` (`ll.go:362-421`): the enabled/level gate, the
namespace gate (with cache), the sampling gate and the rate-limit gate, in
that order.  `sample` is the value `rand.Float64()` would return, `now` the
current time in nanoseconds. -/
def shouldLog (l : LoggerM) (ns : NsState) (level : LevelType) (sample : Rat) (now : Int) :
    Bool × LoggerM × NsState :=
  if ¬ l.enabled ∨ level < l.level then (false, l, ns)
  else
    let r := nsIsEnabled ns l.currentPath
    if r.fst = false then (false, l, r.snd)
    else if sampleGate l.sampleRates level sample = false then (false, l, r.snd)
    else
      match alookup l.rateLimits level with
      | some rl =>
          let g := rateGate rl now
          (g.fst, { l with rateLimits := mapInsert l.rateLimits level g.snd }, r.snd)
      | none => (true, l, r.snd)

/-- What one call of `Logger.log` (`ll.go:312-359`) did: whether an `Entry`
was allocated (and which), how many middleware stages ran, and whether the
handler was invoked. -/
structure LogOutcome where
  recordBuilt : Option EntryM
  mwRan : Nat
  handlerCalled : Bool

/-- Runs the middleware chain in order, stopping at the first stage that
returns false; also counts the stages that ran. -/
def mwRun : List (EntryM → Bool) → EntryM → Bool × Nat
  | [], _ => (true, 0)
  | m :: ms, e =>
      if m e then ((mwRun ms e).fst, (mwRun ms e).snd + 1)
      else (false, 1)

/-- `Logger.log` (`ll.go:312-359`): gate via `shouldLog`; on success attach
the optional stack field, allocate the entry, merge the context, run the
middleware chain, and invoke the handler if one is installed and no
middleware rejected. -/
def logRun (l : LoggerM) (ns : NsState) (level : LevelType) (msg : String)
    (fields : List (String × GoVal)) (withStack : Bool) (sample : Rat) (now : Int) :
    LogOutcome × LoggerM × NsState :=
  let s := shouldLog l ns level sample now
  if s.fst = false then
    ({ recordBuilt := none, mwRan := 0, handlerCalled := false }, s.snd.fst, s.snd.snd)
  else
    let fields1 := if withStack then mapInsert fields "stack" GoVal.stackTrace else fields
    let entry : EntryM :=
      { Timestamp := now, Level := level, Message := msg, Namespace := l.currentPath,
        Fields := ctxMerge fields1 l.context, style := l.style }
    let m := mwRun l.middleware entry
    if m.fst then
      ({ recordBuilt := some entry, mwRan := m.snd, handlerCalled := l.hasHandler },
       s.snd.fst, s.snd.snd)
    else
      ({ recordBuilt := some entry, mwRan := m.snd, handlerCalled := false },
       s.snd.fst, s.snd.snd)

/-- Claim C9.  A logger returned by `New` starts disabled
(`defaultEnabled = false`), and until `Enable` is called every emission at
every severity is a complete no-op: `shouldLog` fails at the enabled gate,
so no entry is allocated, no middleware runs, no handler is invoked, and
neither the logger state nor the namespace store changes. -/
theorem new_logger_disabled_noop (path : String) (ns : NsState) (level : LevelType)
    (msg : String) (fields : List (String × GoVal)) (withStack : Bool)
    (sample : Rat) (now : Int) :
    (New path).enabled = false
  ∧ logRun (New path) ns level msg fields withStack sample now
      = ({ recordBuilt := none, mwRan := 0, handlerCalled := false }, New path, ns) := by
  refine ⟨rfl, ?_⟩
  simp [logRun, shouldLog, New]
